import Mathlib

/-!
Verification of the archive-extraction subsystem of the `dsu` tool
(`src/xtract.rs`, argument surface in `src/cli.rs`).

The embedding models:
* Rust `Path`/`PathBuf` values as lists of path components (`Path`);
* the file-name / extension splitting of `std::path` (`fileName`, `extOfName`,
  `pathExtension`), which splits a file name at its *last* dot;
* the filesystem as an association list from paths to nodes (`FS`), with the
  operations the extractors use (`lookup`, `insert`, `createDirAll`,
  `removeTree`);
* each extractor of `impl XtractArgs` as a function in a state monad `XM`
  over the filesystem plus a log of write operations, with the contents of
  archives supplied by oracles (`World`), since archive decoding itself is
  done by external crates (`tar`, `zip`, `unrar`, `sevenz_rust`, `flate2`).

Non-ASCII lowercasing, file contents and unix permission bits are not
tracked: no claim below depends on them.
-/

set_option autoImplicit false

namespace Dsu

/-! ## Characters and strings

All string operations are hand-rolled structural recursions over `String.data`
so that concrete runs reduce inside the kernel. -/

/-- Split a character list at every occurrence of `c` (like `str::split`). -/
def splitOnChar (c : Char) : List Char → List (List Char)
  | [] => [[]]
  | x :: xs =>
    match splitOnChar c xs with
    | [] => [[]]
    | y :: ys => if x = c then [] :: y :: ys else (x :: y) :: ys

/-- ASCII lowercasing of one character, as `str::to_lowercase` acts on ASCII.
(The archive extensions compared against are all ASCII.) -/
def lowerChar (c : Char) : Char :=
  if 65 ≤ c.toNat ∧ c.toNat ≤ 90 then Char.ofNat (c.toNat + 32) else c

/-- ASCII lowercasing of a string (`str::to_lowercase` restricted to ASCII). -/
def lowerStr (s : String) : String :=
  ⟨s.data.map lowerChar⟩

/-- Split a character list at its *last* dot: `some (before, after)` when a
dot occurs, `none` otherwise.  Mirrors the `rsplitn(2, '.')` used by
`std::path::Path::extension`. -/
def rsplitDot : List Char → Option (List Char × List Char)
  | [] => none
  | c :: rest =>
    match rsplitDot rest with
    | some (b, a) => some (c :: b, a)
    | none => if c = '.' then some ([], rest) else none

/-- Rust `std::path` extension of a *file name*: the text after the last dot,
`none` when there is no dot, when the name is `".."`, or when the name starts
with its only dot (hidden files such as `".bashrc"`). -/
def extOfName (file : String) : Option String :=
  if file = ".." then none
  else
    match rsplitDot file.data with
    | none => none
    | some ([], _) => none
    | some (_, a) => some ⟨a⟩

/-! ## Paths

A path is the list of its components.  The working directory is `[]`; the
Rust path `"."` passed to `tar::Archive::unpack` denotes this working
directory.  Components are assumed to be plain names or `".."`. -/

/-- A filesystem path, as its list of components. -/
abbrev Path := List String

/-- Rust `Path::file_name`: the last component, `none` for an empty path or a
path ending in `".."`. -/
def fileName (p : Path) : Option String :=
  match p.getLast? with
  | none => none
  | some s => if s = ".." then none else some s

/-- Rust `Path::extension`: the extension of the file name. -/
def pathExtension (p : Path) : Option String :=
  (fileName p).bind extOfName

/-! ## Archive formats and errors -/

/-- The dispatch target chosen by `XtractArgs::process` for one lowercased
extension string. -/
inductive Format where
  | Tar
  | Zip
  | Rar
  | SevenZip
  | TarSevenZip
  | Gzip
  | TarGz
  | Planned (ext : String)
  | Unknown (ext : String)
  deriving DecidableEq

/-- Failure modes of the extraction subsystem: the typed `bail!`/`eyre!`
errors of `xtract.rs` plus a generic I/O failure and the `unwrap` panic in
`get_destination`. -/
inductive Err where
  | archiveMissing
  | unableToDetermineExtension
  | destinationNotDirectory (ext : String)
  | plannedUnsupported (ext : String)
  | unsupportedExt (ext : String)
  | noTarInSevenZip
  | ioError
  | panicked
  deriving DecidableEq

/-- The extension-keyed `match` of `XtractArgs::process`, applied to the
lowercased extension; `Planned`/`Unknown` carry the original extension, which
is what `process` hands to `unsupported`. -/
def formatOfExt (ext : String) : Format :=
  match lowerStr ext with
  | "tar" => .Tar
  | "zip" => .Zip
  | "rar" => .Rar
  | "7z" => .SevenZip
  | "tar.7z" => .TarSevenZip
  | "gz" => .Gzip
  | "tgz" => .TarGz
  | "tar.gz" => .TarGz
  | "bz2" => .Planned ext
  | "tbz" => .Planned ext
  | "tbz2" => .Planned ext
  | "tar.bz2" => .Planned ext
  | "xz" => .Planned ext
  | "txz" => .Planned ext
  | "tar.xz" => .Planned ext
  | "lz4" => .Planned ext
  | "tlz4" => .Planned ext
  | "tar.lz4" => .Planned ext
  | "zst" => .Planned ext
  | "tzst" => .Planned ext
  | "tar.zst" => .Planned ext
  | _ => .Unknown ext

/-- The pure part of `XtractArgs::process`: read the archive path's extension
(failing with the distinct "unable to determine the file extension" error when
there is none) and select the extractor. -/
def resolveFormat (archive : Path) : Except Err Format :=
  match pathExtension archive with
  | none => .error .unableToDetermineExtension
  | some ext => .ok (formatOfExt ext)

example : resolveFormat ["archive.tar.gz"] = .ok .Gzip := rfl
example : resolveFormat ["ARCHIVE.TAR.GZ"] = .ok .Gzip := rfl
example : resolveFormat ["bundle.tgz"] = .ok .TarGz := rfl
example : resolveFormat ["x.tar.7z"] = .ok .SevenZip := rfl
example : resolveFormat ["notes.tar"] = .ok .Tar := rfl
example : resolveFormat ["archive"] = .error .unableToDetermineExtension := rfl
example : resolveFormat ["foo.xyz"] = .ok (.Unknown "xyz") := rfl
example : resolveFormat ["foo.TBZ2"] = .ok (.Planned "TBZ2") := rfl

/-! ## The filesystem model -/

/-- A filesystem node: a directory or a regular file.  File contents are not
tracked; no claim below depends on them. -/
inductive Node where
  | dir
  | file
  deriving DecidableEq

/-- Lookup in an association list of paths, first match wins. -/
def lookupList : List (Path × Node) → Path → Option Node
  | [], _ => none
  | e :: es, q => if e.1 = q then some e.2 else lookupList es q

/-- Drop every entry whose path has `p` as a prefix (`p` itself included). -/
def removeList (p : Path) : List (Path × Node) → List (Path × Node)
  | [] => []
  | e :: es => if p.isPrefixOf e.1 then removeList p es else e :: removeList p es

/-- The filesystem: a finite map from paths to nodes, as an association list
(newest entry first). -/
structure FS where
  entries : List (Path × Node)
  deriving DecidableEq

/-- Node stored at `q`, if any. -/
def FS.lookup (fs : FS) (q : Path) : Option Node :=
  lookupList fs.entries q

/-- Rust `Path::exists`. -/
def FS.pathExists (fs : FS) (q : Path) : Bool :=
  (fs.lookup q).isSome

/-- Rust `Path::is_dir`. -/
def FS.isDir (fs : FS) (q : Path) : Bool :=
  fs.lookup q = some .dir

/-- Rust `Path::is_file`. -/
def FS.isFile (fs : FS) (q : Path) : Bool :=
  fs.lookup q = some .file

/-- Store node `n` at path `p` (shadowing any previous entry). -/
def FS.insert (fs : FS) (p : Path) (n : Node) : FS :=
  ⟨(p, n) :: fs.entries⟩

/-- Remove the whole tree rooted at `p` (models dropping a `TempDir`). -/
def FS.removeTree (fs : FS) (p : Path) : FS :=
  ⟨removeList p fs.entries⟩

/-- The nonempty prefixes of a path, shortest first: the chain of directories
`create_dir_all` walks. -/
def prefixesOf (p : Path) : List Path :=
  (List.range p.length).map (fun i => p.take (i + 1))

/-- One step of `create_dir_all`'s walk down the ancestor chain: an existing
directory is fine, an existing file is an error, a missing path becomes a new
directory. -/
def cdStep (acc : Option Err × FS) (q : Path) : Option Err × FS :=
  match acc with
  | (some e, f) => (some e, f)
  | (none, f) =>
    match f.lookup q with
    | some Node.dir => (none, f)
    | some Node.file => (some Err.ioError, f)
    | none => (none, f.insert q Node.dir)

/-- Rust `std::fs::create_dir_all`: create every missing ancestor of `p` and
`p` itself as directories; fail with an I/O error when some ancestor (or `p`)
exists as a regular file.  Existing directories are left untouched and are not
an error. -/
def FS.createDirAll (fs : FS) (p : Path) : Option Err × FS :=
  (prefixesOf p).foldl cdStep (none, fs)

/-! ## The extraction monad

State is the filesystem plus a log of the write operations issued so far;
errors carry the state, since a failed extraction keeps its partial output
(there is no rollback in the source). -/

/-- One write operation issued against the filesystem. -/
inductive Effect where
  | createdDir (p : Path)
  | wroteFile (p : Path)
  | unpacked (dest : Path)
  | removedTree (p : Path)
  deriving DecidableEq

/-- The path a write operation targets. -/
def Effect.path : Effect → Path
  | .createdDir p => p
  | .wroteFile p => p
  | .unpacked p => p
  | .removedTree p => p

/-- Extraction state: filesystem plus operation log. -/
structure St where
  fs : FS
  trace : List Effect
  deriving DecidableEq

/-- Result of one extraction step: success or a typed failure, both carrying
the state reached. -/
inductive XRes (α : Type) where
  | ok (a : α) (s : St)
  | err (e : Err) (s : St)

/-- State reached by a step, whether it succeeded or failed. -/
def XRes.st {α : Type} : XRes α → St
  | .ok _ s => s
  | .err _ s => s

/-- The failure a step ended in, if any. -/
def XRes.errOf {α : Type} : XRes α → Option Err
  | .ok _ _ => none
  | .err e _ => some e

instance {α : Type} [DecidableEq α] : DecidableEq (XRes α) := fun a b =>
  match a, b with
  | .ok x s, .ok y t =>
    if h : x = y ∧ s = t then .isTrue (by rw [h.1, h.2]) else
      .isFalse (by intro hc; cases hc; exact h ⟨rfl, rfl⟩)
  | .ok _ _, .err _ _ => .isFalse (by intro hc; cases hc)
  | .err _ _, .ok _ _ => .isFalse (by intro hc; cases hc)
  | .err x s, .err y t =>
    if h : x = y ∧ s = t then .isTrue (by rw [h.1, h.2]) else
      .isFalse (by intro hc; cases hc; exact h ⟨rfl, rfl⟩)

/-- The extraction monad. -/
def XM (α : Type) : Type := St → XRes α

/-- Monadic return. -/
def XM.pureX {α : Type} (a : α) : XM α := fun s => .ok a s

/-- Monadic sequencing: a failure short-circuits but keeps the state. -/
def XM.bindX {α β : Type} (x : XM α) (f : α → XM β) : XM β := fun s =>
  match x s with
  | .ok a s' => f a s'
  | .err e s' => .err e s'

instance : Monad XM where
  pure := XM.pureX
  bind := XM.bindX

/-- Fail with error `e` (Rust `bail!` / `?` on an `Err`). -/
def throwX {α : Type} (e : Err) : XM α := fun s => .err e s

/-- Rust `File::open` for reading: succeeds exactly when a regular file is at
`p`. -/
def openFileM (p : Path) : XM Unit := fun s =>
  if s.fs.isFile p then .ok () s else .err .ioError s

/-- Monadic `create_dir_all`, logging the operation when it succeeds. -/
def createDirAllM (p : Path) : XM Unit := fun s =>
  match s.fs.createDirAll p with
  | (none, fs') => .ok () ⟨fs', s.trace ++ [.createdDir p]⟩
  | (some e, _) => .err e s

/-- Rust `File::create` (also `unrar`'s `extract_to`): fails when `p` is an
existing directory or when `p`'s parent is not an existing directory; followed
in the source by a byte copy into the new file, so success both stores a file
node and logs a write. -/
def createFileM (p : Path) : XM Unit := fun s =>
  match s.fs.lookup p with
  | some Node.dir => .err .ioError s
  | _ =>
    if p.dropLast = [] then
      .ok () ⟨s.fs.insert p .file, s.trace ++ [.wroteFile p]⟩
    else if s.fs.isDir p.dropLast then
      .ok () ⟨s.fs.insert p .file, s.trace ++ [.wroteFile p]⟩
    else .err .ioError s

/-! ## Destination resolution (`XtractArgs::get_destination`) -/

/-- The argument record of the `xtract` subcommand (`XtractArgs` in
`cli.rs`): archive path, destination directory (default `"."`, the working
directory `[]`), the dry-run flag `-n` and the list flag `-l`. -/
structure XtractArgs where
  archive : Path
  destination : Path
  dry : Bool
  list : Bool
  deriving DecidableEq

/-- Pure core of `XtractArgs::get_destination`: take the archive's file name
(`unwrap` panics when there is none), reject a destination hint bearing an
extension ("Destination is not a directory"), join the file name onto the
hint, and `create_dir_all` the result unless it already exists.  On failure
the partially created ancestor chain is not modeled; no claim depends on it. -/
def getDestination (a : XtractArgs) (fs : FS) : Except Err (Path × FS) :=
  match fileName a.archive with
  | none => .error .panicked
  | some n =>
    match pathExtension a.destination with
    | some e => .error (.destinationNotDirectory e)
    | none =>
      let destination := a.destination ++ [n]
      if fs.pathExists destination then .ok (destination, fs)
      else
        match fs.createDirAll destination with
        | (none, fs') => .ok (destination, fs')
        | (some e, _) => .error e

/-- Monadic wrapper of `getDestination`, logging the directory creation when
one happened. -/
def getDestinationM (a : XtractArgs) : XM Path := fun s =>
  match getDestination a s.fs with
  | .error e => .err e s
  | .ok (d, fs') =>
    if s.fs.pathExists d then .ok d ⟨fs', s.trace⟩
    else .ok d ⟨fs', s.trace ++ [.createdDir d]⟩

/-! ## Archive-content oracles

Decoding of the archive bytes is done by external crates; their results are
supplied as oracles.  A `none` oracle models a decode failure of that crate. -/

/-- One zip central-directory entry as the `zip` crate exposes it. -/
structure ZipEntry where
  name : String
  size : Nat
  comment : String
  unixMode : Option Nat
  deriving DecidableEq

/-- One rar header as the `unrar` crate exposes it (the entry name is already
split into components). -/
structure RarEntry where
  name : Path
  isFile : Bool
  size : Nat
  deriving DecidableEq

/-- Oracles for the external decoders plus the path the `tempfile` crate picks
for a temporary directory. -/
structure World where
  tarOf : Path → Option (List Path)
  zipOf : Option (List ZipEntry)
  rarOf : Option (List RarEntry)
  sevenOf : Option (List String)
  gzOk : Bool
  tmp : Path

/-! ## Zip path safety (`ZipFile::enclosed_name` of the `zip` crate) -/

/-- The NUL character, which `enclosed_name` rejects anywhere in a name. -/
def nulChar : Char := Char.ofNat 0

/-- Walk components keeping a depth counter: `".."` must never take the depth
below zero.  Mirrors the component loop of `enclosed_name` (`"."` components
are dropped before this check, as `Path::components` drops `CurDir`). -/
def depthGo : Nat → List String → Option Nat
  | d, [] => some d
  | d, c :: cs =>
    if c = ".." then
      match d with
      | 0 => none
      | k + 1 => depthGo k cs
    else depthGo (d + 1) cs

/-- The `zip` crate's `enclosed_name` on unix: `none` (entry skipped) when the
name holds a NUL byte, is absolute, or climbs above the destination via
`".."`; otherwise the entry's path components, with empty and `"."` segments
dropped but `".."` segments kept, exactly as `Path::components` yields them. -/
def enclosedName (name : String) : Option (List String) :=
  if name.data.contains nulChar then none
  else if name = "" then some []
  else
    match (splitOnChar '/' name.data).map (fun l => (⟨l⟩ : String)) with
    | [] => none
    | first :: rest =>
      if first = "" then none
      else
        let comps := (first :: rest).filter (fun c => !(c = "" : Bool) && !(c = "." : Bool))
        match depthGo 0 comps with
        | none => none
        | some _ => some comps

example : enclosedName "a/b.txt" = some ["a", "b.txt"] := rfl
example : enclosedName "../evil.txt" = none := rfl
example : enclosedName "/etc/passwd" = none := rfl
example : enclosedName "a/../b" = some ["a", "..", "b"] := rfl
example : enclosedName "a/./b//c/" = some ["a", "b", "c"] := rfl

/-- Resolve `"."` and `".."` segments of a relative path; `none` when the path
would climb above its root.  This is what the operating system does to an
output path containing traversal segments. -/
def normGo : List String → List String → Option (List String)
  | acc, [] => some acc
  | acc, c :: cs =>
    if c = "." then normGo acc cs
    else if c = ".." then
      match acc with
      | [] => none
      | _ => normGo acc.dropLast cs
    else normGo (acc ++ [c]) cs

/-- Normal form of a relative path, `none` when it escapes its root. -/
def normalizeRel (cs : List String) : Option (List String) :=
  normGo [] cs

/-- Bool test: path `p` lies inside the tree rooted at `dest` — `dest` is a
prefix and the remainder resolves without climbing above `dest`. -/
def staysInB (dest p : Path) : Bool :=
  dest.isPrefixOf p && (normalizeRel (p.drop dest.length)).isSome

/-! ## The extractors -/

/-- Materialize one tar entry with relative path `r` under `dest`.  An entry
with an empty relative path cannot occur in a tar stream (the destination root
itself is never an entry), so such oracle values are ignored. -/
def insRel (dest : Path) (f : FS) (r : Path) : FS :=
  if r = [] then f else f.insert (dest ++ r) .file

/-- Unpacking of a tar stream (`tar::Archive::unpack`): the oracle lists the
entry paths relative to `dest`; failure of the decoder is `none`. -/
def unpackTarM (src dest : Path) (w : World) : XM Unit := fun s =>
  match w.tarOf src with
  | none => .err .ioError s
  | some rels =>
    .ok () ⟨rels.foldl (insRel dest) s.fs, s.trace ++ [.unpacked dest]⟩

/-- The archive actually opened by `extract_tar`: the caller-supplied path for
the nested pipeline, `self.archive` otherwise. -/
def tarSrc (a : XtractArgs) (src : Option Path) : Path :=
  match src with
  | some q => q
  | none => a.archive

/-- `XtractArgs::extract_tar`: resolve the destination, open the archive (the
given path for the nested pipeline, `self.archive` otherwise), unpack into the
destination. -/
def extract_tar (a : XtractArgs) (src : Option Path) (w : World) : XM Unit :=
  XM.bindX (getDestinationM a) (fun destination =>
    XM.bindX (openFileM (tarSrc a src))
      (fun _ => unpackTarM (tarSrc a src) destination w))

/-- The `if let Some(p) = outpath.parent() { if !p.exists() { create_dir_all(p)? } }`
step of `extract_zip`. -/
def ensureParentM (p : Path) : XM Unit := fun s =>
  if s.fs.pathExists p then .ok () s
  else createDirAllM p s

/-- Processing of one accepted zip entry with components `comps`: a name
ending in `/` becomes a directory (with ancestors); any other name gets its
missing parents created and its bytes stream-copied to
`destination.join(name)`.  Comment printing and unix-permission restoration
have no filesystem effect tracked by the model. -/
def zipStep (destination : Path) (e : ZipEntry) (comps : List String) : XM Unit :=
  let outpath := destination ++ comps
  if e.name.data.getLast? = some '/' then createDirAllM outpath
  else XM.bindX (ensureParentM outpath.dropLast) (fun _ => createFileM outpath)

/-- The entry loop of `XtractArgs::extract_zip`: skip entries without a safe
enclosed name, process the others in order. -/
def zipLoop (destination : Path) : List ZipEntry → XM Unit
  | [] => XM.pureX ()
  | e :: rest => fun s =>
    match enclosedName e.name with
    | none => zipLoop destination rest s
    | some comps =>
      XM.bindX (zipStep destination e comps) (fun _ => zipLoop destination rest) s

/-- `XtractArgs::extract_zip`: resolve the destination, open the archive,
parse the central directory (oracle `zipOf`), then run the entry loop. -/
def extract_zip (a : XtractArgs) (w : World) : XM Unit :=
  XM.bindX (getDestinationM a) (fun destination =>
    XM.bindX (openFileM a.archive) (fun _ =>
      match w.zipOf with
      | none => throwX .ioError
      | some entries => zipLoop destination entries))

/-- The header loop of `XtractArgs::extract_rar`: for a file header create the
parent chain unconditionally and extract to `destination.join(name)`; for a
directory header `create_dir_all` the entry path and skip its body. -/
def rarLoop (destination : Path) : List RarEntry → XM Unit
  | [] => XM.pureX ()
  | e :: rest =>
    let entryPath := destination ++ e.name
    if e.isFile then
      XM.bindX (createDirAllM entryPath.dropLast)
        (fun _ => XM.bindX (createFileM entryPath) (fun _ => rarLoop destination rest))
    else
      XM.bindX (createDirAllM entryPath) (fun _ => rarLoop destination rest)

/-- Opening the rar archive for processing (`open_for_processing` of the
`unrar` crate, oracle `rarOf`) followed by the header loop. -/
def rarOpenM (a : XtractArgs) (w : World) (destination : Path) : XM Unit := fun s =>
  if s.fs.isFile a.archive then
    match w.rarOf with
    | none => .err .ioError s
    | some headers => rarLoop destination headers s
  else .err .ioError s

/-- `XtractArgs::extract_rar`: resolve the destination, open the archive for
processing, then run the header loop. -/
def extract_rar (a : XtractArgs) (w : World) : XM Unit :=
  XM.bindX (getDestinationM a) (fun destination => rarOpenM a w destination)

/-- Materialize one entry of a 7z payload under `dest` (payload entries are
flat file names: the nested-pipeline scan only looks at immediate entries). -/
def ins7z (dest : Path) (f : FS) (n : String) : FS :=
  f.insert (dest ++ [n]) .file

/-- `sevenz_rust::decompress_file`: open the archive at `src`, then write the
payload's entries into `dest`; returns the entry names for the subsequent
`read_dir` scan, which sees exactly what was just written. -/
def decompress7zM (src dest : Path) (w : World) : XM (List String) := fun s =>
  if s.fs.isFile src then
    match w.sevenOf with
    | none => .err .ioError s
    | some names =>
      .ok names ⟨names.foldl (ins7z dest) s.fs, s.trace ++ [.unpacked dest]⟩
  else .err .ioError s

/-- `XtractArgs::extract_7z`: resolve the destination and decompress the whole
archive into it. -/
def extract_7z (a : XtractArgs) (w : World) : XM Unit :=
  XM.bindX (getDestinationM a) (fun destination =>
    XM.bindX (decompress7zM a.archive destination w) (fun _ => XM.pureX ()))

/-- Body of `XtractArgs::extract_tar7z` between `tempdir()` and the drop of
the guard: decompress the 7z payload into the staging directory, scan its
entries for the first one with extension `tar` (failing with the "No .tar file
found in the decompressed 7z archive" error otherwise), and hand that path to
the tar extractor. -/
def tar7zBody (a : XtractArgs) (w : World) : XM Unit :=
  XM.bindX (decompress7zM a.archive w.tmp w) (fun names =>
    match names.find? (fun n => extOfName n = some "tar") with
    | none => throwX .noTarInSevenZip
    | some n => extract_tar a (some (w.tmp ++ [n])) w)

/-- `XtractArgs::extract_tar7z`: `tempdir()` creates the staging directory;
the `TempDir` guard removes the whole staging tree when the function returns,
on the success path and on every error path alike (RAII drop). -/
def extract_tar7z (a : XtractArgs) (w : World) : XM Unit := fun s =>
  let s1 : St := ⟨s.fs.insert w.tmp .dir, s.trace ++ [.createdDir w.tmp]⟩
  match tar7zBody a w s1 with
  | .ok x s2 => .ok x ⟨s2.fs.removeTree w.tmp, s2.trace ++ [.removedTree w.tmp]⟩
  | .err e s2 => .err e ⟨s2.fs.removeTree w.tmp, s2.trace ++ [.removedTree w.tmp]⟩

/-- Copy step of `extract_gz` (`io::copy` from the `GzDecoder`): fails when
the gzip stream is invalid. -/
def copyGzM (ok : Bool) : XM Unit := fun s =>
  if ok then .ok () s else .err .ioError s

/-- `XtractArgs::extract_gz`: resolve the destination, open the archive, then
`File::create` the *resolved destination path itself* and copy the decoded
stream into it. -/
def extract_gz (a : XtractArgs) (w : World) : XM Unit :=
  XM.bindX (getDestinationM a) (fun destination =>
    XM.bindX (openFileM a.archive) (fun _ =>
      XM.bindX (createFileM destination) (fun _ => copyGzM w.gzOk)))

/-- `XtractArgs::extract_targz` as written in the source: it ignores the
request entirely, opens the literal path `"file.tar.gz"` in the working
directory, and unpacks it into `"."` (the working directory `[]`). -/
def extract_targz (_a : XtractArgs) (w : World) : XM Unit :=
  XM.bindX (openFileM ["file.tar.gz"]) (fun _ => unpackTarM ["file.tar.gz"] [] w)

/-- `XtractArgs::unsupported`. -/
def unsupported (ext : String) (planned : Bool) : XM Unit :=
  if planned then throwX (.plannedUnsupported ext) else throwX (.unsupportedExt ext)

/-- `XtractArgs::process`: resolve the format from the archive path's
extension and dispatch to the matching extractor. -/
def process (a : XtractArgs) (w : World) : XM Unit := fun s =>
  match resolveFormat a.archive with
  | .error e => .err e s
  | .ok fmt =>
    (match fmt with
     | .Tar => extract_tar a none w
     | .Zip => extract_zip a w
     | .Rar => extract_rar a w
     | .SevenZip => extract_7z a w
     | .TarSevenZip => extract_tar7z a w
     | .Gzip => extract_gz a w
     | .TarGz => extract_targz a w
     | .Planned e => unsupported e true
     | .Unknown e => unsupported e false) s

/-- `Runnable::run` for `XtractArgs`: bail out when the archive path is not a
regular file, then `process`. -/
def runX (a : XtractArgs) (w : World) : XM Unit := fun s =>
  if s.fs.isFile a.archive then process a w s else .err .archiveMissing s

/-! ## Concrete fixtures used by the claim theorems -/

/-- A world in which every decoder fails; staging path `["tmpstage"]`. -/
def noWorld : World := ⟨fun _ => none, none, none, none, true, ["tmpstage"]⟩

/-- World for the broken tar.gz path: the literal `./file.tar.gz` decodes to a
tar stream holding the single entry `x.txt`. -/
def tgzWorld : World :=
  ⟨fun p => if p = ["file.tar.gz"] then some [["x.txt"]] else none,
   none, none, none, true, ["tmpstage"]⟩

/-- World in which `./notes.tar` decodes to a tar stream holding `n.txt`. -/
def tarWorld : World :=
  ⟨fun p => if p = ["notes.tar"] then some [["n.txt"]] else none,
   none, none, none, true, ["tmpstage"]⟩

/-! ## Filesystem lemmas -/

theorem lookup_insert_self (fs : FS) (p : Path) (n : Node) :
    (fs.insert p n).lookup p = some n := by
  simp [FS.insert, FS.lookup, lookupList]

theorem lookup_insert_ne (fs : FS) (p q : Path) (n : Node) (h : q ≠ p) :
    (fs.insert p n).lookup q = fs.lookup q := by
  simp only [FS.insert, FS.lookup, lookupList]
  rw [if_neg (fun hh => h hh.symm)]

theorem pathExists_insert (fs : FS) (p q : Path) (n : Node)
    (h : fs.pathExists q = true) : (fs.insert p n).pathExists q = true := by
  by_cases hpq : q = p
  · subst hpq; simp [FS.pathExists, lookup_insert_self]
  · simpa [FS.pathExists, lookup_insert_ne fs p q n hpq] using h

theorem isDir_insert_dir (fs : FS) (p d : Path) (h : fs.isDir d = true) :
    (fs.insert p .dir).isDir d = true := by
  by_cases hpd : d = p
  · subst hpd; simp [FS.isDir, lookup_insert_self]
  · simpa [FS.isDir, lookup_insert_ne fs p d .dir hpd] using h

theorem isDir_insert_file (fs : FS) (p d : Path) (h : fs.isDir d = true)
    (hne : d ≠ p) : (fs.insert p .file).isDir d = true := by
  simpa [FS.isDir, lookup_insert_ne fs p d .file hne] using h

/-- A prefix test is reflexive. -/
theorem isPrefixOf_refl (l : Path) : l.isPrefixOf l = true := by
  induction l with
  | nil => rfl
  | cons x xs ih => simp [List.isPrefixOf, ih]

/-- Appending keeps the prefix test true. -/
theorem isPrefixOf_append_right (l m : Path) : l.isPrefixOf (l ++ m) = true := by
  induction l with
  | nil => simp
  | cons x xs ih => simp [List.isPrefixOf, ih]

theorem ne_of_not_isPrefixOf {t p : Path} (h : t.isPrefixOf p = false) : p ≠ t := by
  intro hp; rw [hp, isPrefixOf_refl t] at h; cases h

theorem ne_append_of_not_isPrefixOf {t p : Path} (m : Path)
    (h : t.isPrefixOf p = false) : p ≠ t ++ m := by
  intro hp; rw [hp, isPrefixOf_append_right t m] at h; cases h

theorem lookupList_remove_pre (t : Path) (es : List (Path × Node)) (p : Path)
    (h : t.isPrefixOf p = true) : lookupList (removeList t es) p = none := by
  induction es with
  | nil => rfl
  | cons e es ih =>
    simp only [removeList]
    by_cases hpre : t.isPrefixOf e.1 = true
    · rw [if_pos hpre]; exact ih
    · rw [if_neg hpre]
      simp only [lookupList]
      rw [if_neg (fun hep : e.1 = p => hpre (hep ▸ h))]
      exact ih

theorem lookupList_remove_not (t : Path) (es : List (Path × Node)) (p : Path)
    (h : t.isPrefixOf p = false) :
    lookupList (removeList t es) p = lookupList es p := by
  induction es with
  | nil => rfl
  | cons e es ih =>
    simp only [removeList]
    by_cases hpre : t.isPrefixOf e.1 = true
    · rw [if_pos hpre]
      simp only [lookupList]
      rw [if_neg (fun hep : e.1 = p => by rw [hep] at hpre; rw [hpre] at h; cases h)]
      exact ih
    · rw [if_neg hpre]
      simp only [lookupList]
      by_cases hep : e.1 = p
      · rw [if_pos hep, if_pos hep]
      · rw [if_neg hep, if_neg hep]; exact ih

theorem removeTree_lookup_pre (fs : FS) (t p : Path) (h : t.isPrefixOf p = true) :
    (fs.removeTree t).lookup p = none :=
  lookupList_remove_pre t fs.entries p h

theorem removeTree_lookup_not (fs : FS) (t p : Path) (h : t.isPrefixOf p = false) :
    (fs.removeTree t).lookup p = fs.lookup p :=
  lookupList_remove_not t fs.entries p h

/-! ## Lemmas about `create_dir_all` -/

theorem cdStep_error (e : Err) (f : FS) (q : Path) :
    cdStep (some e, f) q = (some e, f) := rfl

theorem foldl_cdStep_error (l : List Path) (e : Err) (f : FS) :
    l.foldl cdStep (some e, f) = (some e, f) := by
  induction l with
  | nil => rfl
  | cons q l ih => simpa [cdStep] using ih

theorem cdStep_pathExists {d : Path} (acc : Option Err × FS) (q : Path)
    (h : acc.2.pathExists d = true) : (cdStep acc q).2.pathExists d = true := by
  obtain ⟨c, f⟩ := acc
  cases c with
  | some e => simpa [cdStep] using h
  | none =>
    simp only [cdStep]
    cases hq : f.lookup q with
    | none => exact pathExists_insert f q d .dir h
    | some n => cases n <;> simpa using h

theorem foldl_cdStep_pathExists {d : Path} (l : List Path) (acc : Option Err × FS)
    (h : acc.2.pathExists d = true) : ((l.foldl cdStep acc).2).pathExists d = true := by
  induction l generalizing acc with
  | nil => exact h
  | cons q l ih => exact ih _ (cdStep_pathExists acc q h)

theorem cdStep_isDir {d : Path} (acc : Option Err × FS) (q : Path)
    (h : acc.2.isDir d = true) : (cdStep acc q).2.isDir d = true := by
  obtain ⟨c, f⟩ := acc
  cases c with
  | some e => simpa [cdStep] using h
  | none =>
    simp only [cdStep]
    cases hq : f.lookup q with
    | none => exact isDir_insert_dir f q d h
    | some n => cases n <;> simpa using h

theorem foldl_cdStep_isDir {d : Path} (l : List Path) (acc : Option Err × FS)
    (h : acc.2.isDir d = true) : ((l.foldl cdStep acc).2).isDir d = true := by
  induction l generalizing acc with
  | nil => exact h
  | cons q l ih => exact ih _ (cdStep_isDir acc q h)

theorem createDirAll_isDir (fs : FS) (p d : Path) (h : fs.isDir d = true) :
    ((fs.createDirAll p).2).isDir d = true :=
  foldl_cdStep_isDir _ _ h

/-- If `create_dir_all` reaches a path of the chain without failing, that path
exists afterward. -/
theorem foldl_cdStep_mem_pathExists (l : List Path) (f fs' : FS) (q : Path)
    (hq : q ∈ l) (h : l.foldl cdStep (none, f) = (none, fs')) :
    fs'.pathExists q = true := by
  induction l generalizing f with
  | nil => cases hq
  | cons r l ih =>
    simp only [List.foldl_cons] at h
    rcases List.mem_cons.mp hq with hq | hq
    · subst hq
      have hex : ((cdStep (none, f) q).2).pathExists q = true := by
        simp only [cdStep]
        cases hl : f.lookup q with
        | none => simp [FS.pathExists, lookup_insert_self]
        | some n => cases n <;> simp [FS.pathExists, hl]
      have hfin := foldl_cdStep_pathExists l (cdStep (none, f) q) hex
      rw [h] at hfin
      exact hfin
    · simp only [cdStep] at h
      cases hl : f.lookup r with
      | none =>
        rw [hl] at h
        exact ih (f.insert r .dir) hq h
      | some n =>
        rw [hl] at h
        cases n with
        | dir => exact ih f hq h
        | file =>
          rw [foldl_cdStep_error] at h
          simp at h

/-- The whole path is the last element of its own ancestor chain. -/
theorem self_mem_prefixesOf (p : Path) (h : p ≠ []) : p ∈ prefixesOf p := by
  have hlen : 0 < p.length := List.length_pos.mpr h
  refine List.mem_map.mpr ⟨p.length - 1, List.mem_range.mpr (by omega), ?_⟩
  rw [Nat.sub_add_cancel (by omega)]
  exact List.take_length p

/-- A successful `create_dir_all` leaves its target existing. -/
theorem createDirAll_ok_pathExists (fs fs' : FS) (p : Path) (hp : p ≠ [])
    (h : fs.createDirAll p = (none, fs')) : fs'.pathExists p = true :=
  foldl_cdStep_mem_pathExists (prefixesOf p) fs fs' p (self_mem_prefixesOf p hp) h

/-! ## Directory preservation through the extractors

None of the extractors ever deletes or overwrites an existing directory node
(only the nested pipeline removes its own staging tree): once the resolved
destination directory exists, it survives every later step, in particular a
failed open or decode of the archive. -/

/-- Appending a nonempty suffix changes a path. -/
theorem append_ne_self_of_ne_nil (l r : Path) (h : r ≠ []) : l ++ r ≠ l := by
  intro hc
  have hlen := congrArg List.length hc
  simp only [List.length_append] at hlen
  exact h (List.eq_nil_of_length_eq_zero (by omega))

/-- An action of the extraction monad that keeps the directory at `d` intact
whenever it is present. -/
def KeepsDir {α : Type} (d : Path) (m : XM α) : Prop :=
  ∀ s : St, s.fs.isDir d = true → (((m s).st).fs).isDir d = true

theorem keepsDir_bindX {α β : Type} {d : Path} {x : XM α} {f : α → XM β}
    (hx : KeepsDir d x) (hf : ∀ a, KeepsDir d (f a)) : KeepsDir d (XM.bindX x f) := by
  intro s h
  unfold XM.bindX
  cases hr : x s with
  | ok a s' =>
    have hx' := hx s h
    rw [hr] at hx'
    exact hf a s' hx'
  | err e s' =>
    have hx' := hx s h
    rw [hr] at hx'
    simpa [XRes.st] using hx'

theorem keepsDir_pureX {α : Type} (d : Path) (a : α) : KeepsDir d (XM.pureX a) :=
  fun _ h => h

theorem keepsDir_throwX {α : Type} (d : Path) (e : Err) : KeepsDir d (throwX e : XM α) :=
  fun _ h => h

theorem keepsDir_openFileM (d p : Path) : KeepsDir d (openFileM p) := by
  intro s h
  unfold openFileM
  split <;> exact h

theorem keepsDir_copyGzM (d : Path) (ok : Bool) : KeepsDir d (copyGzM ok) := by
  intro s h
  unfold copyGzM
  split <;> exact h

theorem keepsDir_createDirAllM (d p : Path) : KeepsDir d (createDirAllM p) := by
  intro s h
  unfold createDirAllM
  rcases hc : s.fs.createDirAll p with ⟨c, f'⟩
  cases c with
  | none =>
    have := createDirAll_isDir s.fs p d h
    rw [hc] at this
    simpa [XRes.st] using this
  | some e => simpa [XRes.st] using h

theorem keepsDir_ensureParentM (d p : Path) : KeepsDir d (ensureParentM p) := by
  intro s h
  unfold ensureParentM
  split
  · exact h
  · exact keepsDir_createDirAllM d p s h

theorem keepsDir_createFileM (d p : Path) : KeepsDir d (createFileM p) := by
  intro s h
  have hd : s.fs.lookup d = some Node.dir := by simpa [FS.isDir] using h
  cases hl : s.fs.lookup p with
  | none =>
    have hne : d ≠ p := fun hc => by rw [hc, hl] at hd; cases hd
    simp only [createFileM, hl]
    by_cases h1 : p.dropLast = []
    · rw [if_pos h1]
      simpa [XRes.st] using isDir_insert_file s.fs p d h hne
    · rw [if_neg h1]
      by_cases h2 : s.fs.isDir p.dropLast = true
      · rw [if_pos h2]
        simpa [XRes.st] using isDir_insert_file s.fs p d h hne
      · rw [if_neg h2]
        exact h
  | some n =>
    cases n with
    | dir => simp only [createFileM, hl]; exact h
    | file =>
      have hne : d ≠ p := fun hc => by rw [hc, hl] at hd; cases hd
      simp only [createFileM, hl]
      by_cases h1 : p.dropLast = []
      · rw [if_pos h1]
        simpa [XRes.st] using isDir_insert_file s.fs p d h hne
      · rw [if_neg h1]
        by_cases h2 : s.fs.isDir p.dropLast = true
        · rw [if_pos h2]
          simpa [XRes.st] using isDir_insert_file s.fs p d h hne
        · rw [if_neg h2]
          exact h

theorem keepsDir_zipStep (d dest : Path) (e : ZipEntry) (comps : List String) :
    KeepsDir d (zipStep dest e comps) := by
  intro s h
  simp only [zipStep]
  by_cases hslash : e.name.data.getLast? = some '/'
  · rw [if_pos hslash]
    exact keepsDir_createDirAllM d _ s h
  · rw [if_neg hslash]
    exact keepsDir_bindX (keepsDir_ensureParentM d _)
      (fun _ => keepsDir_createFileM d _) s h

theorem keepsDir_zipLoop (d dest : Path) (entries : List ZipEntry) :
    KeepsDir d (zipLoop dest entries) := by
  induction entries with
  | nil => exact keepsDir_pureX d ()
  | cons e rest ih =>
    intro s h
    cases henc : enclosedName e.name with
    | none =>
      simp only [zipLoop, henc]
      exact ih s h
    | some comps =>
      simp only [zipLoop, henc]
      exact keepsDir_bindX (keepsDir_zipStep d dest e comps) (fun _ => ih) s h

theorem keepsDir_rarLoop (d dest : Path) (headers : List RarEntry) :
    KeepsDir d (rarLoop dest headers) := by
  induction headers with
  | nil => exact keepsDir_pureX d ()
  | cons e rest ih =>
    intro s h
    simp only [rarLoop]
    by_cases hf : e.isFile = true
    · rw [if_pos hf]
      exact keepsDir_bindX (keepsDir_createDirAllM d _)
        (fun _ => keepsDir_bindX (keepsDir_createFileM d _) (fun _ => ih)) s h
    · rw [if_neg hf]
      exact keepsDir_bindX (keepsDir_createDirAllM d _) (fun _ => ih) s h

/-- Tar unpacking writes only strictly below its destination, so the
destination directory node survives it. -/
theorem foldl_insRel_isDir (dest : Path) (rels : List Path) (fs : FS)
    (h : fs.isDir dest = true) : (rels.foldl (insRel dest) fs).isDir dest = true := by
  induction rels generalizing fs with
  | nil => exact h
  | cons r rels ih =>
    simp only [List.foldl_cons]
    apply ih
    unfold insRel
    split
    · exact h
    · next hr =>
      exact isDir_insert_file fs (dest ++ r) dest h
        (fun hc => append_ne_self_of_ne_nil dest r hr hc.symm)

theorem keepsDir_unpackTarM (src dest : Path) (w : World) :
    KeepsDir dest (unpackTarM src dest w) := by
  intro s h
  unfold unpackTarM
  cases w.tarOf src with
  | none => exact h
  | some rels => simpa [XRes.st] using foldl_insRel_isDir dest rels s.fs h

/-- 7z decompression writes only strictly below its destination. -/
theorem foldl_ins7z_isDir (dest : Path) (names : List String) (fs : FS)
    (h : fs.isDir dest = true) : (names.foldl (ins7z dest) fs).isDir dest = true := by
  induction names generalizing fs with
  | nil => exact h
  | cons n names ih =>
    simp only [List.foldl_cons]
    apply ih
    exact isDir_insert_file fs (dest ++ [n]) dest h
      (fun hc => append_ne_self_of_ne_nil dest [n] (by simp) hc.symm)

theorem keepsDir_decompress7zM (src dest : Path) (w : World) :
    KeepsDir dest (decompress7zM src dest w) := by
  intro s h
  unfold decompress7zM
  split
  · cases w.sevenOf with
    | none => exact h
    | some names => simpa [XRes.st] using foldl_ins7z_isDir dest names s.fs h
  · exact h

theorem keepsDir_rarOpenM (d : Path) (a : XtractArgs) (w : World) (dest : Path) :
    KeepsDir d (rarOpenM a w dest) := by
  intro s h
  unfold rarOpenM
  split
  · cases w.rarOf with
    | none => exact h
    | some headers => exact keepsDir_rarLoop d dest headers s h
  · exact h

/-- A successful destination resolution, seen through the monadic wrapper. -/
theorem getDestinationM_ok (a : XtractArgs) (s : St) (d : Path) (fs₁ : FS)
    (h : getDestination a s.fs = Except.ok (d, fs₁)) :
    ∃ tr, getDestinationM a s = .ok d ⟨fs₁, tr⟩ := by
  by_cases hex : s.fs.pathExists d = true
  · exact ⟨s.trace, by simp only [getDestinationM, h]; rw [if_pos hex]⟩
  · exact ⟨s.trace ++ [.createdDir d], by simp only [getDestinationM, h]; rw [if_neg hex]⟩

/-- Sequencing after a step known to succeed. -/
theorem bindX_ok {α β : Type} (x : XM α) (f : α → XM β) (s : St) (a : α) (s' : St)
    (h : x s = .ok a s') : XM.bindX x f s = f a s' := by
  unfold XM.bindX
  rw [h]

/-- Sequencing after a step known to fail. -/
theorem bindX_err {α β : Type} (x : XM α) (f : α → XM β) (s : St) (e : Err) (s' : St)
    (h : x s = .err e s') : XM.bindX x f s = .err e s' := by
  unfold XM.bindX
  rw [h]

/-- Writing a 7z payload into the staging tree touches no path outside it. -/
theorem lookup_foldl_ins7z (t : Path) (names : List String) (fs : FS) (p : Path)
    (h : t.isPrefixOf p = false) :
    (names.foldl (ins7z t) fs).lookup p = fs.lookup p := by
  induction names generalizing fs with
  | nil => rfl
  | cons n names ih =>
    simp only [List.foldl_cons]
    rw [ih]
    exact lookup_insert_ne fs (t ++ [n]) p Node.file (ne_append_of_not_isPrefixOf [n] h)

/-! ## Zip path-safety lemmas

The `enclosed_name` depth check guarantees that an accepted entry's components
normalize without ever climbing above the destination, so every path the zip
entry loop writes to stays inside the destination tree. -/

/-- Trace predicate: every logged write stays inside the tree rooted at
`dest`. -/
def inTreeTrace (dest : Path) (tr : List Effect) : Bool :=
  tr.all (fun eff => staysInB dest eff.path)

/-- Inversion of a successful `enclosed_name`: the accepted components are
free of `"."` and pass the depth check. -/
theorem enclosedName_inv {name : String} {comps : List String}
    (h : enclosedName name = some comps) :
    (∀ c ∈ comps, c ≠ ".") ∧ ∃ k, depthGo 0 comps = some k := by
  unfold enclosedName at h
  by_cases h0 : name.data.contains nulChar = true
  · rw [if_pos h0] at h; cases h
  · rw [if_neg h0] at h
    by_cases h1 : name = ""
    · rw [if_pos h1] at h
      injection h with h'
      subst h'
      exact ⟨by simp, 0, rfl⟩
    · rw [if_neg h1] at h
      cases hsplit : (splitOnChar '/' name.data).map (fun l => (⟨l⟩ : String)) with
      | nil =>
        simp only [hsplit] at h
        exact Option.noConfusion h
      | cons first rest =>
        simp only [hsplit] at h
        by_cases h2 : first = ""
        · rw [if_pos h2] at h; cases h
        · rw [if_neg h2] at h
          cases hd : depthGo 0
              ((first :: rest).filter fun c => !(c = "" : Bool) && !(c = "." : Bool)) with
          | none =>
            simp only [hd] at h
            exact Option.noConfusion h
          | some k =>
            simp only [hd] at h
            injection h with h'
            subst h'
            refine ⟨?_, k, hd⟩
            intro c hc
            have hmem := List.mem_filter.mp hc
            have := hmem.2
            simp only [Bool.and_eq_true, Bool.not_eq_true', decide_eq_false_iff_not] at this
            exact this.2

/-- A component list that passes the depth check normalizes successfully. -/
theorem depthGo_normGo : ∀ (cs : List String) (k : Nat) (acc : List String),
    (∀ c ∈ cs, c ≠ ".") → (depthGo k cs).isSome = true → acc.length = k →
    (normGo acc cs).isSome = true := by
  intro cs
  induction cs with
  | nil => intro k acc _ _ _; rfl
  | cons c cs ih =>
    intro k acc hdot hd hlen
    have hc1 : c ≠ "." := hdot c (by simp)
    by_cases hc2 : c = ".."
    · simp only [depthGo, if_pos hc2] at hd
      cases k with
      | zero => simp at hd
      | succ k =>
        simp only [normGo, if_neg hc1, if_pos hc2]
        cases acc with
        | nil => simp at hlen
        | cons a as =>
          simp only []
          refine ih k (a :: as).dropLast (fun x hx => hdot x (by simp [hx])) hd ?_
          simp only [List.length_dropLast, List.length_cons] at hlen ⊢
          omega
    · simp only [depthGo, if_neg hc2] at hd
      simp only [normGo, if_neg hc1, if_neg hc2]
      exact ih (k + 1) (acc ++ [c]) (fun x hx => hdot x (by simp [hx])) hd
        (by simp [hlen])

/-- If a longer relative path normalizes, so does every prefix of it. -/
theorem normGo_append_isSome : ∀ (xs ys acc : List String),
    (normGo acc (xs ++ ys)).isSome = true → (normGo acc xs).isSome = true := by
  intro xs
  induction xs with
  | nil => intro ys acc _; rfl
  | cons c xs ih =>
    intro ys acc h
    simp only [List.cons_append, normGo] at h ⊢
    by_cases hc1 : c = "."
    · rw [if_pos hc1] at h ⊢
      exact ih ys acc h
    · rw [if_neg hc1] at h ⊢
      by_cases hc2 : c = ".."
      · rw [if_pos hc2] at h ⊢
        cases acc with
        | nil => simp at h
        | cons a as => exact ih ys (a :: as).dropLast h
      · rw [if_neg hc2] at h ⊢
        exact ih ys (acc ++ [c]) h

theorem normalizeRel_dropLast {cs : List String}
    (h : (normalizeRel cs).isSome = true) :
    (normalizeRel cs.dropLast).isSome = true := by
  by_cases hnil : cs = []
  · subst hnil; simpa using h
  · unfold normalizeRel at h ⊢
    rw [← List.dropLast_append_getLast hnil] at h
    exact normGo_append_isSome cs.dropLast [cs.getLast hnil] [] h

/-- An accepted zip entry's components normalize. -/
theorem enclosedName_normalizes {name : String} {comps : List String}
    (h : enclosedName name = some comps) : (normalizeRel comps).isSome = true := by
  obtain ⟨hdot, k, hd⟩ := enclosedName_inv h
  exact depthGo_normGo comps 0 [] hdot (by rw [hd]; rfl) rfl

/-- A path of the form `dest ++ cs` with normalizable `cs` stays inside the
`dest` tree. -/
theorem staysInB_append (dest : Path) (cs : List String)
    (h : (normalizeRel cs).isSome = true) : staysInB dest (dest ++ cs) = true := by
  simp [staysInB, isPrefixOf_append_right, List.drop_left, h]

theorem inTreeTrace_append (dest : Path) (tr : List Effect) (eff : Effect)
    (htr : inTreeTrace dest tr = true) (heff : staysInB dest eff.path = true) :
    inTreeTrace dest (tr ++ [eff]) = true := by
  simp only [inTreeTrace, List.all_append, List.all_cons, List.all_nil,
    Bool.and_eq_true] at htr ⊢
  exact ⟨htr, heff, trivial⟩

/-! ## Trace specifications of the zip loop's steps -/

theorem createDirAll_pathExists (fs : FS) (p q : Path)
    (h : fs.pathExists q = true) : ((fs.createDirAll p).2).pathExists q = true :=
  foldl_cdStep_pathExists _ _ h

/-- `create_dir_all` at an in-tree path keeps the trace in-tree and keeps the
destination's parent existing. -/
theorem createDirAllM_spec (dest p : Path) (s : St)
    (htr : inTreeTrace dest s.trace = true)
    (hq : s.fs.pathExists dest.dropLast = true)
    (hstays : staysInB dest p = true) :
    inTreeTrace dest ((createDirAllM p s).st.trace) = true ∧
    (createDirAllM p s).st.fs.pathExists dest.dropLast = true := by
  rcases hc : s.fs.createDirAll p with ⟨c, f'⟩
  cases c with
  | none =>
    simp only [createDirAllM, hc, XRes.st]
    refine ⟨inTreeTrace_append dest s.trace _ htr hstays, ?_⟩
    have := createDirAll_pathExists s.fs p dest.dropLast hq
    rw [hc] at this
    exact this
  | some e =>
    simp only [createDirAllM, hc, XRes.st]
    exact ⟨htr, hq⟩

/-- The parent-creation step of the zip loop: for an entry at `dest ++ comps`
the parent is either the destination's own parent (which already exists, so
nothing happens) or an in-tree path. -/
theorem ensureParentM_spec (dest p : Path) (s : St)
    (htr : inTreeTrace dest s.trace = true)
    (hq : s.fs.pathExists dest.dropLast = true)
    (hp : p = dest.dropLast ∨ staysInB dest p = true) :
    inTreeTrace dest ((ensureParentM p s).st.trace) = true ∧
    (ensureParentM p s).st.fs.pathExists dest.dropLast = true := by
  unfold ensureParentM
  by_cases hex : s.fs.pathExists p = true
  · rw [if_pos hex]; exact ⟨htr, hq⟩
  · rw [if_neg hex]
    have hstays : staysInB dest p = true := by
      rcases hp with h | h
      · exact absurd (h ▸ hq) hex
      · exact h
    exact createDirAllM_spec dest p s htr hq hstays

/-- `File::create` plus copy at an in-tree path keeps the trace in-tree and
the destination's parent existing. -/
theorem createFileM_spec (dest p : Path) (s : St)
    (htr : inTreeTrace dest s.trace = true)
    (hq : s.fs.pathExists dest.dropLast = true)
    (hstays : staysInB dest p = true) :
    inTreeTrace dest ((createFileM p s).st.trace) = true ∧
    (createFileM p s).st.fs.pathExists dest.dropLast = true := by
  cases hl : s.fs.lookup p with
  | none =>
    simp only [createFileM, hl]
    by_cases h1 : p.dropLast = []
    · rw [if_pos h1]
      exact ⟨inTreeTrace_append dest s.trace _ htr hstays,
        pathExists_insert s.fs p dest.dropLast Node.file hq⟩
    · rw [if_neg h1]
      by_cases h2 : s.fs.isDir p.dropLast = true
      · rw [if_pos h2]
        exact ⟨inTreeTrace_append dest s.trace _ htr hstays,
          pathExists_insert s.fs p dest.dropLast Node.file hq⟩
      · rw [if_neg h2]; exact ⟨htr, hq⟩
  | some n =>
    cases n with
    | dir => simp only [createFileM, hl]; exact ⟨htr, hq⟩
    | file =>
      simp only [createFileM, hl]
      by_cases h1 : p.dropLast = []
      · rw [if_pos h1]
        exact ⟨inTreeTrace_append dest s.trace _ htr hstays,
          pathExists_insert s.fs p dest.dropLast Node.file hq⟩
      · rw [if_neg h1]
        by_cases h2 : s.fs.isDir p.dropLast = true
        · rw [if_pos h2]
          exact ⟨inTreeTrace_append dest s.trace _ htr hstays,
            pathExists_insert s.fs p dest.dropLast Node.file hq⟩
        · rw [if_neg h2]; exact ⟨htr, hq⟩

/-- The parent of an accepted entry's output path is the destination's parent
exactly when the entry has no components; otherwise it is an in-tree path. -/
theorem outpath_parent_cases (dest : Path) {name : String} {comps : List String}
    (henc : enclosedName name = some comps) :
    (dest ++ comps).dropLast = dest.dropLast ∨
    staysInB dest ((dest ++ comps).dropLast) = true := by
  by_cases hnil : comps = []
  · subst hnil; left; simp
  · right
    rw [List.dropLast_append_of_ne_nil dest hnil]
    exact staysInB_append dest comps.dropLast
      (normalizeRel_dropLast (enclosedName_normalizes henc))

/-- One accepted-entry step keeps the trace in-tree and keeps the
destination's parent existing. -/
theorem zipStep_spec (dest : Path) (e : ZipEntry) {comps : List String} (s : St)
    (htr : inTreeTrace dest s.trace = true)
    (hex : s.fs.pathExists dest.dropLast = true)
    (henc : enclosedName e.name = some comps) :
    inTreeTrace dest ((zipStep dest e comps s).st.trace) = true ∧
    (zipStep dest e comps s).st.fs.pathExists dest.dropLast = true := by
  have hstays : staysInB dest (dest ++ comps) = true :=
    staysInB_append dest comps (enclosedName_normalizes henc)
  simp only [zipStep]
  by_cases hslash : e.name.data.getLast? = some '/'
  · rw [if_pos hslash]
    exact createDirAllM_spec dest (dest ++ comps) s htr hex hstays
  · rw [if_neg hslash]
    cases hens : ensureParentM ((dest ++ comps).dropLast) s with
    | err e1 t =>
      rw [bindX_err _ _ _ _ _ hens]
      have hspec := ensureParentM_spec dest ((dest ++ comps).dropLast) s htr hex
        (outpath_parent_cases dest henc)
      rw [hens] at hspec
      exact hspec
    | ok u1 t =>
      rw [bindX_ok _ _ _ _ _ hens]
      have hspec := ensureParentM_spec dest ((dest ++ comps).dropLast) s htr hex
        (outpath_parent_cases dest henc)
      rw [hens] at hspec
      exact createFileM_spec dest (dest ++ comps) t hspec.1 hspec.2 hstays

/-- Every write the zip entry loop performs is logged at a path inside the
destination tree, provided the writes so far were and the destination's parent
directory exists. -/
theorem zipLoop_trace_inTree (dest : Path) (entries : List ZipEntry) :
    ∀ s : St, inTreeTrace dest s.trace = true →
      s.fs.pathExists dest.dropLast = true →
      inTreeTrace dest ((zipLoop dest entries s).st.trace) = true := by
  induction entries with
  | nil => intro s htr _; exact htr
  | cons e rest ih =>
    intro s htr hex
    cases henc : enclosedName e.name with
    | none =>
      simp only [zipLoop, henc]
      exact ih s htr hex
    | some comps =>
      simp only [zipLoop, henc]
      have hspec := zipStep_spec dest e s htr hex henc
      cases hop : zipStep dest e comps s with
      | ok u t =>
        rw [bindX_ok _ _ _ _ _ hop]
        rw [hop] at hspec
        exact ih t hspec.1 hspec.2
      | err e1 t =>
        rw [bindX_err _ _ _ _ _ hop]
        rw [hop] at hspec
        exact hspec.1

/-- Entries without a safe enclosed name are exact no-ops: the zip loop
computes the same function as the loop over only the safe entries. -/
theorem zipLoop_filter_safe (dest : Path) (entries : List ZipEntry) :
    ∀ s : St, zipLoop dest entries s =
      zipLoop dest (entries.filter (fun e => (enclosedName e.name).isSome)) s := by
  induction entries with
  | nil => intro s; rfl
  | cons e rest ih =>
    intro s
    cases henc : enclosedName e.name with
    | none =>
      have hns : (enclosedName e.name).isSome = false := by rw [henc]; rfl
      simp only [zipLoop, henc, List.filter_cons, hns, Bool.false_eq_true, if_false]
      exact ih s
    | some comps =>
      have hs : (enclosedName e.name).isSome = true := by rw [henc]; rfl
      simp only [List.filter_cons, hs, if_true]
      simp only [zipLoop, henc]
      cases hop : zipStep dest e comps s with
      | ok u t =>
        rw [bindX_ok _ _ _ _ _ hop, bindX_ok _ _ _ _ _ hop]
        exact ih t
      | err e1 t =>
        rw [bindX_err _ _ _ _ _ hop, bindX_err _ _ _ _ _ hop]

/-! ## Claim theorems -/

/-- C1.  The claim reads: format resolution checks compound suffixes before
simple ones, so `.tar.gz` (any case) yields TarGz, not Gzip, and `.tar.7z`
yields TarSevenZip, not SevenZip.  The code violates this: `process` keys its
dispatch on `Path::extension`, which only ever returns the text after the
*last* dot, so the `"tar.gz"` and `"tar.7z"` match arms are unreachable and
both names resolve to the simple-suffix extractor.  (The intent is clear from
the dead `"tar.gz"`/`"tar.7z"` arms in the source's own match, so this is a
defect of the code, exhibited here by evaluating the dispatch.) -/
theorem compound_suffix_resolution_broken :
    resolveFormat ["archive.tar.gz"] = .ok .Gzip ∧
    resolveFormat ["ARCHIVE.TAR.GZ"] = .ok .Gzip ∧
    resolveFormat ["archive.tar.7z"] = .ok .SevenZip ∧
    resolveFormat ["bundle.tgz"] = .ok .TarGz :=
  ⟨rfl, rfl, rfl, rfl⟩

/-- C2.  The claim reads: every extractor writes only inside the resolved
destination (or staging directory).  The code violates it: extracting the
archive `a.tgz` with destination hint `out` dispatches to `extract_targz`,
which opens the literal working-directory file `file.tar.gz` and unpacks it
into the working directory — the run reports success, writes `x.txt` at the
working-directory root, and never even creates the resolved destination
`out/a.tgz`. -/
theorem targz_writes_outside_destination :
    (runX ⟨["a.tgz"], ["out"], false, false⟩ tgzWorld
        ⟨⟨[(["a.tgz"], .file), (["file.tar.gz"], .file)]⟩, []⟩).errOf = none ∧
    ((runX ⟨["a.tgz"], ["out"], false, false⟩ tgzWorld
        ⟨⟨[(["a.tgz"], .file), (["file.tar.gz"], .file)]⟩, []⟩).st.fs.isFile ["x.txt"]) = true ∧
    (["out", "a.tgz"].isPrefixOf ["x.txt"]) = false ∧
    ((runX ⟨["a.tgz"], ["out"], false, false⟩ tgzWorld
        ⟨⟨[(["a.tgz"], .file), (["file.tar.gz"], .file)]⟩, []⟩).st.fs.pathExists
        ["out", "a.tgz"]) = false := by
  decide

/-- C4.  The claim reads: for every recognized format, a destination hint
bearing a file extension makes extraction fail with the invalid-destination
error before any write.  The code violates it for the recognized TarGz format
(reached via a `.tgz` archive): `extract_targz` never calls `get_destination`,
so the hint `out.txt` — which bears the extension `txt` — is never rejected;
the run succeeds and writes into the working directory. -/
theorem tgz_destination_extension_not_rejected :
    (runX ⟨["a.tgz"], ["out.txt"], false, false⟩ tgzWorld
        ⟨⟨[(["a.tgz"], .file), (["file.tar.gz"], .file)]⟩, []⟩).errOf = none ∧
    pathExtension ["out.txt"] = some "txt" ∧
    ((runX ⟨["a.tgz"], ["out.txt"], false, false⟩ tgzWorld
        ⟨⟨[(["a.tgz"], .file), (["file.tar.gz"], .file)]⟩, []⟩).st.fs.isFile ["x.txt"]) = true := by
  decide

/-- C6.  The claim reads: with dry-run enabled, destination-directory creation
is only reported, and extraction does not write.  The code violates it: the
`dry` flag of `XtractArgs` is never read anywhere in `xtract.rs`, so a run
with `dry := true` is literally the same function as with `dry := false`; in
particular extracting `notes.tar` with `-n` still creates `out/notes.tar` and
writes `out/notes.tar/n.txt`. -/
theorem dry_run_flag_ignored :
    (∀ (arch dest : Path) (l : Bool) (w : World),
        runX ⟨arch, dest, true, l⟩ w = runX ⟨arch, dest, false, l⟩ w) ∧
    ((runX ⟨["notes.tar"], ["out"], true, false⟩ tarWorld
        ⟨⟨[(["notes.tar"], .file)]⟩, []⟩).errOf = none ∧
      ((runX ⟨["notes.tar"], ["out"], true, false⟩ tarWorld
        ⟨⟨[(["notes.tar"], .file)]⟩, []⟩).st.fs.isDir ["out", "notes.tar"]) = true ∧
      ((runX ⟨["notes.tar"], ["out"], true, false⟩ tarWorld
        ⟨⟨[(["notes.tar"], .file)]⟩, []⟩).st.fs.isFile ["out", "notes.tar", "n.txt"]) = true) :=
  ⟨fun _ _ _ _ => rfl, by decide⟩

/-- C7.  The claim reads: extracting `data.gz` produces a single file at the
resolved destination whose bytes are the reference decompression.  The code
cannot do this: `get_destination` first creates the resolved path
`out/data.gz` as a *directory*, and `extract_gz` then calls `File::create` on
that very path, which fails because the path is an existing directory — so
gzip extraction always ends in an I/O error and leaves an empty directory, not
a file, at the resolved destination. -/
theorem gz_extraction_creates_directory_then_fails :
    (extract_gz ⟨["data.gz"], ["out"], false, false⟩ noWorld
        ⟨⟨[(["data.gz"], .file)]⟩, []⟩).errOf = some Err.ioError ∧
    ((extract_gz ⟨["data.gz"], ["out"], false, false⟩ noWorld
        ⟨⟨[(["data.gz"], .file)]⟩, []⟩).st.fs.isDir ["out", "data.gz"]) = true ∧
    ((extract_gz ⟨["data.gz"], ["out"], false, false⟩ noWorld
        ⟨⟨[(["data.gz"], .file)]⟩, []⟩).st.fs.isFile ["out", "data.gz"]) = false := by
  decide

/-- Fixture for the C5 theorem: a zip archive holding the safe entry
`a/b.txt` and a crafted escaping entry `../evil.txt`. -/
def zipWorld : World :=
  ⟨fun _ => none, some [⟨"a/b.txt", 3, "", none⟩, ⟨"../evil.txt", 4, "", none⟩],
   none, none, true, ["tmpstage"]⟩

/-- C5.  Zip entries whose names would escape the destination after
normalization (absolute names, too many parent-directory segments, NUL bytes)
are skipped without aborting: (1) the entry loop computes exactly the same
function as the loop over only the safe entries, so unsafe entries contribute
no write and no failure and the remaining safe entries are still extracted;
(2) every write operation the loop logs targets a path inside the destination
tree (its suffix relative to the destination normalizes without climbing out);
(3) concretely, extracting an archive holding `a/b.txt` and `../evil.txt`
succeeds, writes `out/archive.zip/a/b.txt`, and no `evil.txt` appears at the
working-directory root, under the hint, or in the destination. -/
theorem zip_unsafe_entries_skipped_not_fatal :
    (∀ (dest : Path) (entries : List ZipEntry) (s : St),
        zipLoop dest entries s =
          zipLoop dest (entries.filter (fun e => (enclosedName e.name).isSome)) s) ∧
    (∀ (dest : Path) (entries : List ZipEntry) (s : St),
        inTreeTrace dest s.trace = true →
        s.fs.pathExists dest.dropLast = true →
        inTreeTrace dest ((zipLoop dest entries s).st.trace) = true) ∧
    ((extract_zip ⟨["archive.zip"], ["out"], false, false⟩ zipWorld
        ⟨⟨[(["archive.zip"], Node.file)]⟩, []⟩).errOf = none ∧
      (extract_zip ⟨["archive.zip"], ["out"], false, false⟩ zipWorld
        ⟨⟨[(["archive.zip"], Node.file)]⟩, []⟩).st.fs.isFile
          ["out", "archive.zip", "a", "b.txt"] = true ∧
      (extract_zip ⟨["archive.zip"], ["out"], false, false⟩ zipWorld
        ⟨⟨[(["archive.zip"], Node.file)]⟩, []⟩).st.fs.pathExists ["evil.txt"] = false ∧
      (extract_zip ⟨["archive.zip"], ["out"], false, false⟩ zipWorld
        ⟨⟨[(["archive.zip"], Node.file)]⟩, []⟩).st.fs.pathExists
          ["out", "evil.txt"] = false ∧
      (extract_zip ⟨["archive.zip"], ["out"], false, false⟩ zipWorld
        ⟨⟨[(["archive.zip"], Node.file)]⟩, []⟩).st.fs.pathExists
          ["out", "archive.zip", "evil.txt"] = false) :=
  ⟨fun dest entries s => zipLoop_filter_safe dest entries s,
   fun dest entries s htr hex => zipLoop_trace_inTree dest entries s htr hex,
   by decide⟩

/-- Witness for C5: running the entry loop on the two-entry fixture from a
state whose destination parent exists produces only in-tree write
operations. -/
theorem zip_unsafe_entries_skipped_not_fatal_witness :
    inTreeTrace ["out", "archive.zip"]
      ((zipLoop ["out", "archive.zip"]
          [⟨"a/b.txt", 3, "", none⟩, ⟨"../evil.txt", 4, "", none⟩]
          ⟨⟨[(["out"], Node.dir)]⟩, []⟩).st.trace) = true :=
  zip_unsafe_entries_skipped_not_fatal.2.1 ["out", "archive.zip"]
    [⟨"a/b.txt", 3, "", none⟩, ⟨"../evil.txt", 4, "", none⟩]
    ⟨⟨[(["out"], Node.dir)]⟩, []⟩ (by decide) (by decide)

/-- C8.  Destination resolution is idempotent: a successful resolution yields
`destinationHint ++ [archiveFileName]` (the archive's full file name, its own
extension included), and resolving again from the state the first call left
behind returns the very same path and state without erroring — the
already-existing directory short-circuits the creation step. -/
theorem get_destination_idempotent :
    ∀ (a : XtractArgs) (fs : FS) (d : Path) (fs₁ : FS),
      getDestination a fs = .ok (d, fs₁) →
      (∃ n, fileName a.archive = some n ∧ d = a.destination ++ [n]) ∧
      getDestination a fs₁ = .ok (d, fs₁) := by
  intro a fs d fs₁ h
  cases hn : fileName a.archive with
  | none => simp [getDestination, hn] at h
  | some n =>
    cases he : pathExtension a.destination with
    | some e => simp [getDestination, hn, he] at h
    | none =>
      simp only [getDestination, hn, he] at h
      by_cases hex : fs.pathExists (a.destination ++ [n]) = true
      · rw [if_pos hex] at h
        simp only [Except.ok.injEq, Prod.mk.injEq] at h
        obtain ⟨hd, hfs⟩ := h
        subst hd
        subst hfs
        refine ⟨⟨n, rfl, rfl⟩, ?_⟩
        simp only [getDestination, hn, he]
        rw [if_pos hex]
      · rw [if_neg hex] at h
        rcases hcd : fs.createDirAll (a.destination ++ [n]) with ⟨c, f'⟩
        rw [hcd] at h
        cases c with
        | some e => exact Except.noConfusion h
        | none =>
          simp only [Except.ok.injEq, Prod.mk.injEq] at h
          obtain ⟨hd, hfs⟩ := h
          subst hd
          subst hfs
          have hex₁ : f'.pathExists (a.destination ++ [n]) = true :=
            createDirAll_ok_pathExists fs f' (a.destination ++ [n]) (by simp) hcd
          refine ⟨⟨n, rfl, rfl⟩, ?_⟩
          simp only [getDestination, hn, he]
          rw [if_pos hex₁]

/-- Witness for C8: resolving `notes.tar` against hint `out` a second time,
from the state the first resolution built, returns the same path and the same
state. -/
theorem get_destination_idempotent_witness :
    getDestination ⟨["notes.tar"], ["out"], false, false⟩
        ⟨[(["out", "notes.tar"], Node.dir), (["out"], Node.dir)]⟩ =
      .ok (["out", "notes.tar"], ⟨[(["out", "notes.tar"], Node.dir), (["out"], Node.dir)]⟩) :=
  (get_destination_idempotent ⟨["notes.tar"], ["out"], false, false⟩ ⟨[]⟩ _ _ rfl).2

/-- C10.  An archive path whose file name has no extension at all makes
`process` fail with the distinct "unable to determine the file extension"
error — not with the unknown-format error — and the state it returns is the
state it was given: no destination resolution and no filesystem write has
happened. -/
theorem missing_extension_fails_before_any_io :
    ∀ (a : XtractArgs) (w : World) (fs : FS),
      pathExtension a.archive = none →
      process a w ⟨fs, []⟩ = .err .unableToDetermineExtension ⟨fs, []⟩ := by
  intro a w fs h
  simp [process, resolveFormat, h]

/-- Witness for C10: the extensionless archive name `archive` is rejected
up front with the untouched initial state. -/
theorem missing_extension_fails_before_any_io_witness :
    process ⟨["archive"], ["out"], false, false⟩ noWorld ⟨⟨[]⟩, []⟩ =
      .err .unableToDetermineExtension ⟨⟨[]⟩, []⟩ :=
  missing_extension_fails_before_any_io ⟨["archive"], ["out"], false, false⟩ noWorld ⟨[]⟩ rfl

/-- C3.  The nested TarSevenZip pipeline: when the 7z payload holds no entry
with extension `tar`, the run fails with the "No .tar file found in the
decompressed 7z archive" error and every path outside the staging tree —
in particular the whole real destination — is exactly as it was before the
call; and on *every* exit path of the pipeline, success or failure, the
staging tree has been removed (the `TempDir` guard drops when the function
returns). -/
theorem tar7z_missing_member_staging_cleanup :
    (∀ (a : XtractArgs) (w : World) (s : St) (names : List String),
        w.sevenOf = some names →
        (∀ n ∈ names, extOfName n ≠ some "tar") →
        s.fs.isFile a.archive = true →
        s.fs.lookup w.tmp = none →
        ((extract_tar7z a w s).errOf = some Err.noTarInSevenZip ∧
          ∀ p : Path, w.tmp.isPrefixOf p = false →
            (extract_tar7z a w s).st.fs.lookup p = s.fs.lookup p)) ∧
    (∀ (a : XtractArgs) (w : World) (s : St) (p : Path),
        w.tmp.isPrefixOf p = true → (extract_tar7z a w s).st.fs.lookup p = none) := by
  constructor
  · intro a w s names h1 h2 h3 h4
    have h3' : s.fs.lookup a.archive = some Node.file := by simpa [FS.isFile] using h3
    have hne : a.archive ≠ w.tmp := fun hc => by rw [hc, h4] at h3'; cases h3'
    have hfile : (s.fs.insert w.tmp Node.dir).isFile a.archive = true := by
      simp [FS.isFile, lookup_insert_ne s.fs w.tmp a.archive Node.dir hne, h3']
    have hfind : names.find? (fun n => decide (extOfName n = some "tar")) = none :=
      List.find?_eq_none.mpr (fun x hx => by simpa using h2 x hx)
    have hdec : decompress7zM a.archive w.tmp w
        ⟨s.fs.insert w.tmp Node.dir, s.trace ++ [Effect.createdDir w.tmp]⟩ =
        .ok names ⟨names.foldl (ins7z w.tmp) (s.fs.insert w.tmp Node.dir),
          (s.trace ++ [Effect.createdDir w.tmp]) ++ [Effect.unpacked w.tmp]⟩ := by
      simp [decompress7zM, h1, hfile]
    have hbody : tar7zBody a w
        ⟨s.fs.insert w.tmp Node.dir, s.trace ++ [Effect.createdDir w.tmp]⟩ =
        .err Err.noTarInSevenZip ⟨names.foldl (ins7z w.tmp) (s.fs.insert w.tmp Node.dir),
          (s.trace ++ [Effect.createdDir w.tmp]) ++ [Effect.unpacked w.tmp]⟩ := by
      simp only [tar7zBody]
      rw [bindX_ok _ _ _ names _ hdec]
      simp [hfind, throwX]
    refine ⟨?_, ?_⟩
    · simp [extract_tar7z, hbody, XRes.errOf]
    · intro p hp
      simp only [extract_tar7z, hbody, XRes.st]
      rw [removeTree_lookup_not _ _ _ hp]
      rw [lookup_foldl_ins7z w.tmp names _ p hp]
      exact lookup_insert_ne s.fs w.tmp p Node.dir (ne_of_not_isPrefixOf hp)
  · intro a w s p hp
    cases hb : tar7zBody a w
        ⟨s.fs.insert w.tmp Node.dir, s.trace ++ [Effect.createdDir w.tmp]⟩ with
    | ok x s2 =>
      simp only [extract_tar7z, hb, XRes.st]
      exact removeTree_lookup_pre s2.fs w.tmp p hp
    | err e s2 =>
      simp only [extract_tar7z, hb, XRes.st]
      exact removeTree_lookup_pre s2.fs w.tmp p hp

/-- Fixture for the C3 witness: a 7z payload holding only `readme.txt`. -/
def sevenWorld : World := ⟨fun _ => none, none, none, some ["readme.txt"], true, ["tmpstage"]⟩

/-- Witness for C3: extracting `bundle.tar.7z` whose payload has no `.tar`
member fails with the missing-member error, leaves the archive file where it
was, writes nothing at the destination, and leaves no staging directory. -/
theorem tar7z_missing_member_staging_cleanup_witness :
    (extract_tar7z ⟨["bundle.tar.7z"], ["out"], false, false⟩ sevenWorld
        ⟨⟨[(["bundle.tar.7z"], Node.file)]⟩, []⟩).errOf = some Err.noTarInSevenZip ∧
    (extract_tar7z ⟨["bundle.tar.7z"], ["out"], false, false⟩ sevenWorld
        ⟨⟨[(["bundle.tar.7z"], Node.file)]⟩, []⟩).st.fs.lookup ["out", "bundle.tar.7z"] =
      (⟨[(["bundle.tar.7z"], Node.file)]⟩ : FS).lookup ["out", "bundle.tar.7z"] ∧
    (extract_tar7z ⟨["bundle.tar.7z"], ["out"], false, false⟩ sevenWorld
        ⟨⟨[(["bundle.tar.7z"], Node.file)]⟩, []⟩).st.fs.lookup ["tmpstage"] = none := by
  have h := tar7z_missing_member_staging_cleanup
  have h1 := h.1 ⟨["bundle.tar.7z"], ["out"], false, false⟩ sevenWorld
    ⟨⟨[(["bundle.tar.7z"], Node.file)]⟩, []⟩ ["readme.txt"] rfl (by decide) (by decide) rfl
  exact ⟨h1.1, h1.2 ["out", "bundle.tar.7z"] (by decide),
    h.2 ⟨["bundle.tar.7z"], ["out"], false, false⟩ sevenWorld
      ⟨⟨[(["bundle.tar.7z"], Node.file)]⟩, []⟩ ["tmpstage"] (by decide)⟩

/-- C9.  In the tar, zip, rar, 7z and gzip extractors the resolved destination
directory is created (with all ancestors, by `get_destination`) before the
archive is opened or decoded, and no later step of any of these extractors
removes or overwrites it — so whatever happens afterwards, including a failed
open or a failed decode, the destination directory still exists in the final
state. -/
theorem destination_survives_decode_failure :
    ∀ (a : XtractArgs) (w : World) (s : St) (d : Path) (fs₁ : FS),
      getDestination a s.fs = Except.ok (d, fs₁) →
      fs₁.isDir d = true →
      ((extract_tar a none w s).st.fs.isDir d = true ∧
       (extract_zip a w s).st.fs.isDir d = true ∧
       (extract_rar a w s).st.fs.isDir d = true ∧
       (extract_7z a w s).st.fs.isDir d = true ∧
       (extract_gz a w s).st.fs.isDir d = true) := by
  intro a w s d fs₁ h1 h2
  obtain ⟨tr, hg⟩ := getDestinationM_ok a s d fs₁ h1
  refine ⟨?_, ?_, ?_, ?_, ?_⟩
  · simp only [extract_tar]
    rw [bindX_ok _ _ s d ⟨fs₁, tr⟩ hg]
    exact keepsDir_bindX (keepsDir_openFileM d _)
      (fun _ => keepsDir_unpackTarM _ d w) ⟨fs₁, tr⟩ h2
  · simp only [extract_zip]
    rw [bindX_ok _ _ s d ⟨fs₁, tr⟩ hg]
    refine keepsDir_bindX (keepsDir_openFileM d _) (fun _ => ?_) ⟨fs₁, tr⟩ h2
    cases w.zipOf with
    | none => exact keepsDir_throwX d .ioError
    | some entries => exact keepsDir_zipLoop d d entries
  · simp only [extract_rar]
    rw [bindX_ok _ _ s d ⟨fs₁, tr⟩ hg]
    exact keepsDir_rarOpenM d a w d ⟨fs₁, tr⟩ h2
  · simp only [extract_7z]
    rw [bindX_ok _ _ s d ⟨fs₁, tr⟩ hg]
    exact keepsDir_bindX (keepsDir_decompress7zM a.archive d w)
      (fun _ => keepsDir_pureX d ()) ⟨fs₁, tr⟩ h2
  · simp only [extract_gz]
    rw [bindX_ok _ _ s d ⟨fs₁, tr⟩ hg]
    exact keepsDir_bindX (keepsDir_openFileM d _)
      (fun _ => keepsDir_bindX (keepsDir_createFileM d d)
        (fun _ => keepsDir_copyGzM d w.gzOk)) ⟨fs₁, tr⟩ h2

/-- Witness for C9: extracting the missing archive `x.zip` fails at the open
step for every format, yet the freshly created destination `out/x.zip` exists
afterward in all five extractors. -/
theorem destination_survives_decode_failure_witness :
    (extract_tar ⟨["x.zip"], ["out"], false, false⟩ none noWorld ⟨⟨[]⟩, []⟩).st.fs.isDir
        ["out", "x.zip"] = true ∧
    (extract_zip ⟨["x.zip"], ["out"], false, false⟩ noWorld ⟨⟨[]⟩, []⟩).st.fs.isDir
        ["out", "x.zip"] = true ∧
    (extract_rar ⟨["x.zip"], ["out"], false, false⟩ noWorld ⟨⟨[]⟩, []⟩).st.fs.isDir
        ["out", "x.zip"] = true ∧
    (extract_7z ⟨["x.zip"], ["out"], false, false⟩ noWorld ⟨⟨[]⟩, []⟩).st.fs.isDir
        ["out", "x.zip"] = true ∧
    (extract_gz ⟨["x.zip"], ["out"], false, false⟩ noWorld ⟨⟨[]⟩, []⟩).st.fs.isDir
        ["out", "x.zip"] = true :=
  destination_survives_decode_failure ⟨["x.zip"], ["out"], false, false⟩ noWorld ⟨⟨[]⟩, []⟩
    ["out", "x.zip"] ⟨[(["out", "x.zip"], Node.dir), (["out"], Node.dir)]⟩ rfl (by decide)

end Dsu
